import Mathlib

/-!
Shallow embedding of `db/range_del_aggregator.cc` (range-deletion aggregator).

User keys are an arbitrary linearly ordered type `α` (the user comparator
`cmp_u` is a total order; `Compare a b < 0` is embedded as `a < b`).
Sequence numbers (`SequenceNumber`, a `uint64_t`) are embedded as `Nat`;
the only place where 64-bit wrap-around matters is `CollapsedRangeDelMap::Size`,
which is modelled with an explicit `% 2 ^ 64`.

The two map representations are embedded as sorted association lists:
a `CollapsedRangeDelMap` (`std::map<Slice, SequenceNumber>`) as a list of
key/seqno pairs in strictly ascending key order, and an
`UncollapsedRangeDelMap` (`std::multiset<RangeTombstone, by start key>`)
as a list of tombstones in ascending start-key order.  All states produced
by the C++ code are sorted in this sense, and the embedded operations below
reproduce the `std::map`/`std::multiset` iterator manipulations
(`upper_bound`, `operator[]`, `erase`, `emplace`) on such sorted lists.
-/

namespace RangeDel

/-- A range tombstone `(start_key_, end_key_, seq_)`: every user key in the
half-open interval `[start, stop)` is deleted at sequence number `seq`.
The C++ field `end_key_` is called `stop` because `end` is reserved. -/
structure Tomb (α : Type) where
  start : α
  stop : α
  seq : Nat
deriving DecidableEq

/-- The representation of a `CollapsedRangeDelMap`: the entries of the
`std::map<Slice, SequenceNumber>` in ascending key order. -/
abbrev Rep (α : Type) := List (α × Nat)

variable {α : Type} [LinearOrder α]

/-- Key-ordering relation on collapsed-map entries (strictly ascending keys). -/
def RK (a b : α × Nat) : Prop := a.1 < b.1

/-- Boolean predicate used for `upper_bound(k)` splits: entry key `≤ k`. -/
def pLE (a : α) (x : α × Nat) : Bool := decide (x.1 ≤ a)

/-- Boolean predicate for the middle walk of `AddTombstone`: entry key `< e`. -/
def pLT (e : α) (x : α × Nat) : Bool := decide (x.1 < e)

/-- Seqno of the last entry of a list of collapsed-map entries, `0` if none.
This is `prev_seq()` evaluated with the cursor just past the list. -/
def lastSeq (l : Rep α) : Nat := (l.getLast?.map Prod.snd).getD 0

/-- Whether the first entry of `l` has key `k`. -/
def headKeyIs (l : Rep α) (k : α) : Bool :=
  match l.head? with
  | some e => decide (e.1 = k)
  | none => false

/-- Whether the last entry of `l` has key `k`. -/
def lastKeyIs (l : Rep α) (k : α) : Bool :=
  match l.getLast? with
  | some e => decide (e.1 = k)
  | none => false

/-- `rep_[k] = s` restricted to the prefix of entries with key `≤ k`
(`std::map::operator[]` overwrites the entry at `k` if present, otherwise
inserts a new entry, which on this prefix means at the end). -/
def setStart (k : α) (s : Nat) (lo : Rep α) : Rep α :=
  match lo.getLast? with
  | some e => if e.1 = k then lo.dropLast ++ [(k, s)] else lo ++ [(k, s)]
  | none => [(k, s)]

/-- Result of the middle walk of `CollapsedRangeDelMap::AddTombstone`:
the rewritten entries (`out`), the untouched suffix at which the loop
stopped (`rem`), and the final values of `prev_seq()` and `end_seq`. -/
structure WalkRes (α : Type) where
  out : Rep α
  rem : Rep α
  prev : Nat
  endSeq : Nat
deriving DecidableEq

/-- The middle walk of `CollapsedRangeDelMap::AddTombstone`
(`while (it != rep_.end() && ucmp_->Compare(it->first, t.end_key_) < 0)`):
`q` is `t.seq_`, `e` is `t.end_key_`, the list argument is the entries from
the cursor on, `prev` is the current `prev_seq()` and `es` the current
`end_seq`.  An entry covered by the new tombstone (`q > s`) records its
seqno in `end_seq` and is erased when `prev_seq() == t.seq_`, otherwise
raised to `q`; an entry with `s ≥ q` is skipped. -/
def walk (q : Nat) (e : α) : Rep α → Nat → Nat → WalkRes α
  | [], prev, es => ⟨[], [], prev, es⟩
  | (k, s) :: rest, prev, es =>
    if k < e then
      if s < q then
        if q = prev then
          walk q e rest prev s
        else
          let r := walk q e rest q s
          ⟨(k, q) :: r.out, r.rem, r.prev, r.endSeq⟩
      else
        let r := walk q e rest s es
        ⟨(k, s) :: r.out, r.rem, r.prev, r.endSeq⟩
    else ⟨[], (k, s) :: rest, prev, es⟩

/-- Start handling of `AddTombstone`: `if (t.seq_ > prev_seq()) rep_[t.start_key_] = t.seq_`. -/
def startLo (t : Tomb α) (lo : Rep α) : Rep α :=
  if lastSeq lo < t.seq then setStart t.start t.seq lo else lo

/-- Value of `prev_seq()` right after the start handling. -/
def startP1 (t : Tomb α) (lo : Rep α) : Nat :=
  if lastSeq lo < t.seq then t.seq else lastSeq lo

/-- Value of `end_seq` right after the start handling. -/
def startES (t : Tomb α) (lo : Rep α) : Nat :=
  if lastSeq lo < t.seq then lastSeq lo else 0

/-- End handling of `AddTombstone`:
`if (t.seq_ == prev_seq()) rep_.emplace(t.end_key_, end_seq)`.
`emplace` is a no-op when an entry with key `t.end_key_` already exists;
in a sorted map such an entry can only be the head of the remaining suffix
or (when `t.start_key_ == t.end_key_`) the entry at `t.start_key_`,
i.e. the last entry of the `≤ start` prefix. -/
def finishTail (t : Tomb α) (lo : Rep α) (r : WalkRes α) : Rep α :=
  if r.prev = t.seq ∧ headKeyIs r.rem t.stop = false ∧ lastKeyIs lo t.stop = false then
    (t.stop, r.endSeq) :: r.rem
  else r.rem

/-- `CollapsedRangeDelMap::AddTombstone`.  The map is split at
`upper_bound(t.start_key_)` into the entries with key `≤ t.start_key_`
and the rest; then the start handling, the middle walk and the end
handling are applied.  Faithful for well-formed tombstones
(`start ≤ stop`, the data-model precondition) on sorted states. -/
def addT (t : Tomb α) (rep : Rep α) : Rep α :=
  startLo t (rep.takeWhile (pLE t.start)) ++
    (walk t.seq t.stop (rep.dropWhile (pLE t.start)) (startP1 t (rep.takeWhile (pLE t.start)))
      (startES t (rep.takeWhile (pLE t.start)))).out ++
    finishTail t (startLo t (rep.takeWhile (pLE t.start)))
      (walk t.seq t.stop (rep.dropWhile (pLE t.start)) (startP1 t (rep.takeWhile (pLE t.start)))
        (startES t (rep.takeWhile (pLE t.start))))

/-- Fold a sequence of `AddTombstone` calls starting from the empty collapsed map. -/
def buildCollapsed (ts : List (Tomb α)) : Rep α :=
  ts.foldl (fun m t => addT t m) []

/-- `CollapsedRangeDelMap::ShouldDelete` in `kBinarySearch` mode:
`iter_ = rep_.upper_bound(parsed.user_key)`; if at `begin` return `false`,
else step back and return `parsed.sequence < iter_->second`. -/
def csd (rep : Rep α) (x : α) (s : Nat) : Bool :=
  match (rep.takeWhile (pLE x)).getLast? with
  | none => false
  | some e => decide (s < e.2)

/-- `CollapsedRangeDelMap::Size`: `rep_.size() - 1` in `size_t`
(unsigned 64-bit) arithmetic, hence with wrap-around on the empty map. -/
def CSize (rep : Rep α) : Nat := (rep.length + (2 ^ 64 - 1)) % 2 ^ 64

/-- `SeekPastSentinels` of `CollapsedRangeDelMap::Iterator`: advance while
the iterator is `Valid()` (a successor entry exists) and the current entry
is a sentinel (`iter_->second == 0`). -/
def seekPast : Rep α → Rep α
  | (k, s) :: b :: rest => if s = 0 then seekPast (b :: rest) else (k, s) :: b :: rest
  | l => l

/-- One `for (; it->Valid(); it->Next())` drain of a
`CollapsedRangeDelMap::Iterator` positioned at the suffix given: emit
`(iter_->first, next(iter_)->first, iter_->second)` while `Valid()`, then
advance and skip sentinels.  `fuel` bounds the recursion; every step
consumes at least one entry, so `fuel = rep.length` is always enough. -/
def emitAux : Nat → Rep α → List (α × α × Nat)
  | n + 1, (k1, s1) :: b :: rest => (k1, b.1, s1) :: emitAux n (seekPast (b :: rest))
  | _, _ => []

/-- All tombstones emitted by a fresh `CollapsedRangeDelMap::Iterator`
(the constructor positions it at `rep_.begin()` without skipping sentinels). -/
def emitAll (rep : Rep α) : List (α × α × Nat) := emitAux rep.length rep

/-- `UncollapsedRangeDelMap::AddTombstone`: `rep_.emplace(tombstone)` on the
`std::multiset` ordered by start key; an element equal on the key goes after
the existing ones. -/
def uAdd (t : Tomb α) : List (Tomb α) → List (Tomb α)
  | [] => [t]
  | u :: rest => if t.start < u.start then t :: u :: rest else u :: uAdd t rest

/-- Fold a sequence of `AddTombstone` calls starting from the empty uncollapsed map. -/
def buildUncollapsed (ts : List (Tomb α)) : List (Tomb α) :=
  ts.foldl (fun m t => uAdd t m) []

/-- `UncollapsedRangeDelMap::ShouldDelete` in `kFullScan` mode: scan the
tombstones in start-key order, stop early once `user_key < start_key_`,
report deletion when `sequence < seq_` and `user_key < end_key_`. -/
def usd (rep : List (Tomb α)) (x : α) (s : Nat) : Bool :=
  match rep with
  | [] => false
  | t :: rest =>
    if x < t.start then false
    else if s < t.seq ∧ x < t.stop then true
    else usd rest x s

/-- `UncollapsedRangeDelMap::Size`: `rep_.size()`. -/
def uSize (rep : List (Tomb α)) : Nat := rep.length

end RangeDel

namespace RangeDel

/-- C1: the claimed pointwise equivalence between `CollapsedRangeDelMap` and
`UncollapsedRangeDelMap` fails on the source: after inserting the tombstones
`[b,d)@5` and then `[a,c)@5` (keys embedded as `b = 1`, `d = 3`, `a = 0`,
`c = 2`), the key `c` at sequence `4` is reported dead by the uncollapsed
full scan but alive by the collapsed binary search — the collapse algorithm
drops the coverage of `[c,d)` when an overlapping tombstone with the same
seqno is added.  This also makes the repository's own
`OverlappingSameSeqNo` test (reverse insertion direction) fail. -/
theorem c1_collapsed_uncollapsed_divergence :
    csd (buildCollapsed [(⟨1, 3, 5⟩ : Tomb Nat), ⟨0, 2, 5⟩]) 2 4 = false ∧
    usd (buildUncollapsed [(⟨1, 3, 5⟩ : Tomb Nat), ⟨0, 2, 5⟩]) 2 4 = true := by
  decide

/-- C4: an empty tombstone `[a,a)@5` is not inert on a `CollapsedRangeDelMap`:
added to the empty map it installs the entry `a ↦ 5` but the terminating
`emplace(t.end_key_, 0)` is a no-op (an entry at `a` already exists), so the
key `a` at sequence `4` flips from not-deleted to deleted.  The uncollapsed
map treats the same tombstone inertly.  The repository's own
`SameStartAndEnd` test expects `(a, 4)` to stay alive in collapsed mode. -/
theorem c4_empty_tombstone_not_inert :
    csd ([] : Rep Nat) 0 4 = false ∧
    addT (⟨0, 0, 5⟩ : Tomb Nat) [] = [(0, 5)] ∧
    csd (addT (⟨0, 0, 5⟩ : Tomb Nat) []) 0 4 = true ∧
    usd (uAdd (⟨0, 0, 5⟩ : Tomb Nat) []) 0 4 = false := by
  decide

/-- C5: inserting `[a,b)@5` then `[b,c)@5` (keys `a = 0`, `b = 1`, `c = 2`)
into a fresh collapsed map does not produce the claimed two-entry staircase
`a ↦ 5, c ↦ 0`: the start handling overwrites the sentinel at `b` with
`b ↦ 5` and never removes it, so the staircase has three entries and the
iterator emits two tombstones `(a,b,5), (b,c,5)` instead of the single
`(a,c,5)` that the repository's own `ContiguousSameSeqNo` test expects. -/
theorem c5_contiguous_same_seqno_not_merged :
    buildCollapsed [(⟨0, 1, 5⟩ : Tomb Nat), ⟨1, 2, 5⟩] = [(0, 5), (1, 5), (2, 0)] ∧
    buildCollapsed [(⟨0, 1, 5⟩ : Tomb Nat), ⟨1, 2, 5⟩] ≠ [(0, 5), (2, 0)] ∧
    emitAll (buildCollapsed [(⟨0, 1, 5⟩ : Tomb Nat), ⟨1, 2, 5⟩]) = [(0, 1, 5), (1, 2, 5)] ∧
    emitAll (buildCollapsed [(⟨0, 1, 5⟩ : Tomb Nat), ⟨1, 2, 5⟩]) ≠ [(0, 2, 5)] := by
  decide

/-- C6: insertion order matters for the collapsed map on the source code:
for `S = {[a,c)@5, [b,d)@5}` (keys `a = 0`, `b = 1`, `c = 2`, `d = 3`),
inserting `[a,c)@5` first yields the staircase `a ↦ 5, d ↦ 0` (key `c` at
seq `4` deleted), while the reverse order yields
`a ↦ 5, b ↦ 5, c ↦ 0, d ↦ 0` (key `c` at seq `4` not deleted).  The
repository's own `OverlappingSameSeqNo` test runs both directions and
expects identical answers. -/
theorem c6_insertion_order_dependent :
    csd (buildCollapsed [(⟨0, 2, 5⟩ : Tomb Nat), ⟨1, 3, 5⟩]) 2 4 = true ∧
    csd (buildCollapsed [(⟨1, 3, 5⟩ : Tomb Nat), ⟨0, 2, 5⟩]) 2 4 = false := by
  decide

/-- C2, counterexample: the staircase invariant as claimed (over all
`AddTombstone` calls) fails — adding the legal empty tombstone `[a,a)@5`
to the empty map yields the non-empty one-entry map `a ↦ 5` whose last
entry does not carry the sentinel seqno `0`. -/
theorem c2_sentinel_counterexample :
    addT (⟨0, 0, 5⟩ : Tomb Nat) [] ≠ [] ∧
    lastSeq (addT (⟨0, 0, 5⟩ : Tomb Nat) []) ≠ 0 := by
  decide

/-- C7, counterexample: collapsed insertion is not idempotent for every
tombstone and reachable state.  With `M = addT [a,c)@5 ∅ = [(a,5),(c,0)]`
and the empty tombstone `t = [b,b)@5`, the first add inserts the sentinel
`b ↦ 0` (cutting `[b,c)` out of the coverage) and the second add raises it
to `b ↦ 5`, so the second identical add is not a no-op. -/
theorem c7_idempotence_counterexample :
    addT (⟨1, 1, 5⟩ : Tomb Nat) (addT ⟨1, 1, 5⟩ (buildCollapsed [⟨0, 2, 5⟩])) ≠
      addT (⟨1, 1, 5⟩ : Tomb Nat) (buildCollapsed [⟨0, 2, 5⟩]) := by
  decide

/-- C9: `CollapsedRangeDelMap::Size` returns `rep_.size() - 1` in unsigned
64-bit arithmetic: the number of staircase entries minus one (subtracting
the sentinel) for non-empty maps, and `2^64 - 1` by wrap-around on the
empty map. -/
theorem c9_collapsed_size (rep : Rep α) (h : rep.length < 2 ^ 64) :
    CSize rep = if rep.length = 0 then 2 ^ 64 - 1 else rep.length - 1 := by
  have h64 : (2 : Nat) ^ 64 = 18446744073709551616 := by norm_num
  unfold CSize
  simp only [h64] at h ⊢
  split <;> omega

/-- Witness for `c9_collapsed_size` at the concrete two-entry staircase
`[(0,5),(1,0)]` and at the empty map. -/
theorem c9_collapsed_size_witness :
    ([(0, 5), (1, 0)] : Rep Nat).length < 2 ^ 64 ∧
    CSize ([(0, 5), (1, 0)] : Rep Nat) = 1 ∧
    CSize ([] : Rep Nat) = 2 ^ 64 - 1 := by
  refine ⟨by norm_num, ?_, ?_⟩
  · have h := c9_collapsed_size ([(0, 5), (1, 0)] : Rep Nat) (by norm_num)
    simpa using h
  · have h := c9_collapsed_size ([] : Rep Nat) (by norm_num)
    simpa using h

end RangeDel

namespace RangeDel

variable {α : Type} [LinearOrder α]

/-- `kMaxSequenceNumber`: the all-ones 64-bit sequence number. -/
def MAXSEQ : Nat := 2 ^ 64 - 1

/-- One `stripe_map_.emplace(bound, ...)` on the ordered set of stripe upper
bounds: sorted insertion that is a no-op when the bound is already present. -/
def insertBound (b : Nat) : List Nat → List Nat
  | [] => [b]
  | x :: rest =>
    if b < x then b :: x :: rest
    else if b = x then x :: rest
    else x :: insertBound b rest

/-- `RangeDelAggregator::InitRep`: one stripe per snapshot plus the
catch-all `kMaxSequenceNumber` stripe; the `std::map` keeps the upper
bounds sorted and deduplicated. -/
def initBounds (snapshots : List Nat) : List Nat :=
  insertBound MAXSEQ (snapshots.foldl (fun acc s => insertBound s acc) [])

/-- `RangeDelAggregator::GetRangeDelMap (seq)` restricted to the stripe
bound it selects: `stripe_map_.upper_bound(seq - 1)` when `seq > 0`
(the first bound strictly greater than `seq - 1`), else the first stripe. -/
def stripeBoundFor (bounds : List Nat) (s : Nat) : Option Nat :=
  if 0 < s then (bounds.dropWhile (fun b => decide (b ≤ s - 1))).head?
  else bounds.head?

/-- A `RangeDelAggregator` whose `rep_` is initialized: the stripe map from
snapshot upper bounds to collapsed maps. -/
structure Agg (α : Type) where
  stripes : List (Nat × Rep α)
deriving DecidableEq

/-- The stripe upper bounds of an aggregator, in map order. -/
def Agg.bounds (a : Agg α) : List Nat := a.stripes.map Prod.fst

/-- `RangeDelAggregator` after `InitRep(snapshots)` (collapsed mode):
every stripe holds an empty collapsed map. -/
def initAgg (snapshots : List Nat) : Agg α :=
  ⟨(initBounds snapshots).map (fun b => (b, []))⟩

/-- `GetRangeDelMap(t.seq_).AddTombstone(t)`: the tombstone is added to the
stripe selected for its seqno; all other stripes are untouched. -/
def Agg.add (t : Tomb α) (a : Agg α) : Agg α :=
  ⟨a.stripes.map fun e =>
    if stripeBoundFor a.bounds t.seq = some e.1 then (e.1, addT t e.2) else e⟩

/-- `RangeDelAggregator::ShouldDeleteImpl` (binary-search positioning):
query only the stripe selected for `parsed.sequence`; an empty stripe map
answers `false`. -/
def Agg.shouldDelete (a : Agg α) (x : α) (s : Nat) : Bool :=
  match stripeBoundFor a.bounds s with
  | some b =>
    match a.stripes.find? (fun e => decide (e.1 = b)) with
    | some e => csd e.2 x s
    | none => false
  | none => false

/-- Status returned by `RangeDelAggregator::AddTombstones`. -/
inductive IngestStatus where
  | ok : IngestStatus
  | corruption : IngestStatus
deriving DecidableEq

/-- One parsed-and-routed tombstone of the ingest loop: a source entry is a
pair of the parse result of its internal key (`none` when
`ParseInternalKey` fails, otherwise the start user key and seqno) and its
value (the exclusive end user key). -/
def parseAdd (a : Agg α) (e : Option (α × Nat) × α) : Agg α :=
  match e.1 with
  | some (st, sq) => Agg.add ⟨st, e.2, sq⟩ a
  | none => a

/-- `RangeDelAggregator::AddTombstones`: drain the source iterator in
order; on the first entry whose internal key fails to parse, return a
`Corruption` status immediately, leaving every previously added tombstone
in place. -/
def aggAddTombstones (a : Agg α) : List (Option (α × Nat) × α) → Agg α × IngestStatus
  | [] => (a, .ok)
  | (none, _) :: _ => (a, .corruption)
  | (some (st, sq), en) :: rest => aggAddTombstones (Agg.add ⟨st, en, sq⟩ a) rest

/-- Modelled from the spec: truncation to file boundaries (spec §4.3.1).
The truncating form of `AddTombstones` (taking the file's `smallest` and
`largest` internal keys) is not part of the source file — only the test
file calls it — so the user-key clipping described by the spec is modelled
here: a start key below `smallest.user_key` is raised to it, an end key
above `largest.user_key` is lowered to it, and a tombstone whose truncated
start is not below its truncated end is dropped. -/
def truncateTombstone (sm lg : α) (t : Tomb α) : Option (Tomb α) :=
  if (if t.start < sm then sm else t.start) < (if lg < t.stop then lg else t.stop) then
    some ⟨if t.start < sm then sm else t.start, if lg < t.stop then lg else t.stop, t.seq⟩
  else none

/-- Modelled from the spec: the ingest of one tombstone under file
boundaries — truncate, then add the surviving tombstone to the map;
a dropped tombstone contributes nothing. -/
def addTruncated (sm lg : α) (t : Tomb α) (rep : Rep α) : Rep α :=
  match truncateTombstone sm lg t with
  | some u => addT u rep
  | none => rep

end RangeDel

namespace RangeDel

variable {α : Type} [LinearOrder α]

/-- C10: `AddTombstones` on a source whose entries parse up to `pre`, then
fail at `(none, v)`: the call reports corruption, stops draining (`rest` is
never consumed), and the aggregator keeps exactly the tombstones of `pre`
— the state is the fold of the successful adds, not the pre-call state. -/
theorem c10_ingest_corruption_no_rollback (a : Agg α)
    (pre rest : List (Option (α × Nat) × α)) (v : α)
    (h : ∀ e ∈ pre, e.1 ≠ none) :
    aggAddTombstones a (pre ++ (none, v) :: rest) =
      (pre.foldl parseAdd a, IngestStatus.corruption) := by
  induction pre generalizing a with
  | nil => rfl
  | cons e pre ih =>
    obtain ⟨pe, ve⟩ := e
    rcases pe with _ | ⟨st, sq⟩
    · exact absurd rfl (h (none, ve) (List.mem_cons_self _ _))
    · show aggAddTombstones (Agg.add ⟨st, ve, sq⟩ a) (pre ++ (none, v) :: rest) = _
      rw [ih (Agg.add ⟨st, ve, sq⟩ a) (fun e he => h e (List.mem_cons_of_mem _ he))]
      rfl

/-- Witness for `c10_ingest_corruption_no_rollback`: one good entry, then a
parse failure, then one more (never consumed) entry; the resulting state
differs from the initial aggregator. -/
theorem c10_ingest_witness :
    aggAddTombstones (initAgg [] : Agg Nat)
        ([(some (0, 5), 2)] ++ (none, 9) :: [(some (1, 3), 4)]) =
      ([((some (0, 5) : Option (Nat × Nat)), 2)].foldl parseAdd (initAgg []),
        IngestStatus.corruption) ∧
    [((some (0, 5) : Option (Nat × Nat)), 2)].foldl parseAdd (initAgg []) ≠
      (initAgg [] : Agg Nat) := by
  constructor
  · exact c10_ingest_corruption_no_rollback (initAgg []) [(some (0, 5), 2)]
      [(some (1, 3), 4)] 9 (by decide)
  · decide

/-- C8: truncation to file boundaries, settled against the spec-modelled
`truncateTombstone`: the surviving tombstone's start key is raised
to `smallest.user_key` exactly when it was below it (`max`), its end key is
lowered to `largest.user_key` exactly when it was above it (`min`), and
when the truncated start is not below the truncated end, the tombstone is
dropped and contributes nothing to the map. -/
theorem c8_truncation_bounds (sm lg : α) (t : Tomb α) (rep : Rep α) :
    (max t.start sm < min t.stop lg →
      truncateTombstone sm lg t = some ⟨max t.start sm, min t.stop lg, t.seq⟩) ∧
    (min t.stop lg ≤ max t.start sm →
      truncateTombstone sm lg t = none ∧ addTruncated sm lg t rep = rep) := by
  have hmax : (if t.start < sm then sm else t.start) = max t.start sm := by
    split
    · exact (max_eq_right (le_of_lt (by assumption))).symm
    · exact (max_eq_left (le_of_not_lt (by assumption))).symm
  have hmin : (if lg < t.stop then lg else t.stop) = min t.stop lg := by
    split
    · exact (min_eq_right (le_of_lt (by assumption))).symm
    · exact (min_eq_left (le_of_not_lt (by assumption))).symm
  refine ⟨fun h => ?_, fun h => ?_⟩
  · unfold truncateTombstone
    rw [hmax, hmin, if_pos h]
  · have h2 : truncateTombstone sm lg t = none := by
      unfold truncateTombstone
      rw [hmax, hmin, if_neg (not_lt.mpr h)]
    refine ⟨h2, ?_⟩
    unfold addTruncated
    rw [h2]

/-- Witness for `c8_truncation_bounds`: `[2,20)@7` truncated by boundaries
`smallest = 5`, `largest = 10` becomes `[5,10)@7`; `[2,3)@7` with the same
boundaries is dropped and leaves the map unchanged. -/
theorem c8_truncation_witness :
    truncateTombstone (5 : Nat) 10 ⟨2, 20, 7⟩ = some ⟨max 2 5, min 20 10, 7⟩ ∧
    (truncateTombstone (5 : Nat) 10 ⟨2, 3, 7⟩ = none ∧
      addTruncated (5 : Nat) 10 ⟨2, 3, 7⟩ [(0, 1)] = [(0, 1)]) :=
  ⟨(c8_truncation_bounds 5 10 ⟨2, 20, 7⟩ []).1 (by decide),
    (c8_truncation_bounds 5 10 ⟨2, 3, 7⟩ [(0, 1)]).2 (by decide)⟩

end RangeDel

namespace RangeDel

variable {α : Type} [LinearOrder α]

theorem mem_insertBound (b x : Nat) (l : List Nat) :
    x ∈ insertBound b l ↔ x = b ∨ x ∈ l := by
  induction l with
  | nil => simp [insertBound]
  | cons y rest ih =>
    unfold insertBound
    split
    · simp only [List.mem_cons]
      try tauto
    · split
      · rename_i hb
        subst hb
        simp only [List.mem_cons]
        try tauto
      · simp only [List.mem_cons, ih]
        try tauto

theorem pairwise_insertBound (b : Nat) (l : List Nat) (h : l.Pairwise (· < ·)) :
    (insertBound b l).Pairwise (· < ·) := by
  induction l with
  | nil => simp [insertBound]
  | cons y rest ih =>
    rw [List.pairwise_cons] at h
    obtain ⟨hy, hrest⟩ := h
    unfold insertBound
    split
    · rename_i hlt
      refine List.pairwise_cons.mpr ⟨?_, List.pairwise_cons.mpr ⟨hy, hrest⟩⟩
      intro z hz
      rcases List.mem_cons.mp hz with rfl | hz'
      · exact hlt
      · exact lt_trans hlt (hy z hz')
    · split
      · exact List.pairwise_cons.mpr ⟨hy, hrest⟩
      · rename_i h1 h2
        refine List.pairwise_cons.mpr ⟨?_, ih hrest⟩
        intro z hz
        rcases (mem_insertBound b z rest).mp hz with rfl | hz'
        · exact lt_of_le_of_ne (le_of_not_lt h1) (fun he => h2 he.symm)
        · exact hy z hz'

theorem pairwise_foldl_insertBound (l : List Nat) (acc : List Nat)
    (h : acc.Pairwise (· < ·)) :
    (l.foldl (fun a s => insertBound s a) acc).Pairwise (· < ·) := by
  induction l generalizing acc with
  | nil => exact h
  | cons s rest ih => exact ih _ (pairwise_insertBound s acc h)

theorem mem_foldl_insertBound (l : List Nat) (acc : List Nat) (x : Nat) :
    x ∈ l.foldl (fun a s => insertBound s a) acc ↔ x ∈ acc ∨ x ∈ l := by
  induction l generalizing acc with
  | nil => simp
  | cons s rest ih =>
    simp only [List.foldl_cons, ih, mem_insertBound, List.mem_cons]
    tauto

theorem initBounds_pairwise (snaps : List Nat) :
    (initBounds snaps).Pairwise (· < ·) :=
  pairwise_insertBound _ _ (pairwise_foldl_insertBound _ _ (by simp))

theorem mem_initBounds (snaps : List Nat) (x : Nat) :
    x ∈ initBounds snaps ↔ x ∈ snaps ∨ x = MAXSEQ := by
  unfold initBounds
  rw [mem_insertBound, mem_foldl_insertBound]
  simp
  tauto

theorem head?_dropWhile_least (B : List Nat) (v b : Nat) (hp : B.Pairwise (· < ·))
    (h : (B.dropWhile (fun u => decide (u ≤ v))).head? = some b) :
    b ∈ B ∧ v < b ∧ ∀ u ∈ B, v < u → b ≤ u := by
  induction B with
  | nil => simp [List.dropWhile] at h
  | cons x rest ih =>
    rw [List.pairwise_cons] at hp
    obtain ⟨hx, hrest⟩ := hp
    rw [List.dropWhile_cons] at h
    by_cases hxv : x ≤ v
    · rw [if_pos (by simpa using hxv)] at h
      obtain ⟨h1, h2, h3⟩ := ih hrest h
      refine ⟨List.mem_cons_of_mem _ h1, h2, ?_⟩
      intro u hu hvu
      rcases List.mem_cons.mp hu with rfl | hu'
      · omega
      · exact h3 u hu' hvu
    · rw [if_neg (by simpa using hxv)] at h
      simp only [List.head?_cons, Option.some.injEq] at h
      subst h
      refine ⟨List.mem_cons_self _ _, by omega, ?_⟩
      intro u hu _
      rcases List.mem_cons.mp hu with rfl | hu'
      · exact le_refl _
      · exact le_of_lt (hx u hu')

theorem head?_sorted_least (B : List Nat) (b : Nat) (hp : B.Pairwise (· < ·))
    (h : B.head? = some b) : b ∈ B ∧ ∀ u ∈ B, b ≤ u := by
  cases B with
  | nil => simp at h
  | cons x rest =>
    simp only [List.head?_cons, Option.some.injEq] at h
    subst h
    rw [List.pairwise_cons] at hp
    refine ⟨List.mem_cons_self _ _, ?_⟩
    intro u hu
    rcases List.mem_cons.mp hu with rfl | hu'
    · exact le_refl _
    · exact le_of_lt (hp.1 u hu')

theorem dropWhile_ne_nil_of_mem (B : List Nat) (p : Nat → Bool) (x : Nat)
    (hx : x ∈ B) (hpx : p x = false) : B.dropWhile p ≠ [] := by
  induction B with
  | nil => cases hx
  | cons y rest ih =>
    rw [List.dropWhile_cons]
    by_cases hy : p y = true
    · rw [if_pos hy]
      rcases List.mem_cons.mp hx with rfl | hx'
      · rw [hy] at hpx; cases hpx
      · exact ih hx'
    · rw [if_neg hy]
      exact List.cons_ne_nil _ _

theorem stripeBoundFor_least (B : List Nat) (s : Nat) (hp : B.Pairwise (· < ·))
    (hmax : MAXSEQ ∈ B) (hs : s ≤ MAXSEQ) :
    ∃ b, stripeBoundFor B s = some b ∧ b ∈ B ∧ s ≤ b ∧ ∀ u ∈ B, s ≤ u → b ≤ u := by
  unfold stripeBoundFor
  by_cases h0 : 0 < s
  · rw [if_pos h0]
    have hne : B.dropWhile (fun u => decide (u ≤ s - 1)) ≠ [] :=
      dropWhile_ne_nil_of_mem B _ MAXSEQ hmax (by simp; omega)
    cases hh : (B.dropWhile (fun u => decide (u ≤ s - 1))).head? with
    | none => exact absurd (List.head?_eq_none_iff.mp hh) hne
    | some b =>
      obtain ⟨h1, h2, h3⟩ := head?_dropWhile_least B (s - 1) b hp hh
      exact ⟨b, rfl, h1, by omega, fun u hu hsu => h3 u hu (by omega)⟩
  · rw [if_neg h0]
    have hs0 : s = 0 := by omega
    cases hb : B.head? with
    | none =>
      rw [List.head?_eq_none_iff] at hb
      rw [hb] at hmax
      cases hmax
    | some b =>
      obtain ⟨h1, h2⟩ := head?_sorted_least B b hp hb
      exact ⟨b, rfl, h1, by omega, fun u hu _ => h2 u hu⟩

theorem agg_add_bounds (t : Tomb α) (a : Agg α) : (Agg.add t a).bounds = a.bounds := by
  unfold Agg.add Agg.bounds
  simp only [List.map_map]
  congr 1
  funext e
  simp only [Function.comp_apply]
  split <;> rfl

theorem find?_map_fst_preserving (l : List (Nat × Rep α)) (b : Nat)
    (f : Nat × Rep α → Nat × Rep α) (hf : ∀ e, (f e).1 = e.1) :
    (l.map f).find? (fun e => decide (e.1 = b)) =
      (l.find? (fun e => decide (e.1 = b))).map f := by
  induction l with
  | nil => rfl
  | cons e rest ih =>
    simp only [List.map_cons, List.find?]
    rw [show (decide ((f e).1 = b)) = (decide (e.1 = b)) by rw [hf e]]
    cases hd : decide (e.1 = b) with
    | false => exact ih
    | true => rfl

theorem shouldDelete_other_stripe (a : Agg α) (t : Tomb α) (x : α) (s : Nat)
    (hne : stripeBoundFor a.bounds s ≠ stripeBoundFor a.bounds t.seq) :
    (Agg.add t a).shouldDelete x s = a.shouldDelete x s := by
  unfold Agg.shouldDelete
  rw [agg_add_bounds]
  cases hsb : stripeBoundFor a.bounds s with
  | none => rfl
  | some b =>
    have hf : ∀ e : Nat × Rep α,
        ((fun e => if stripeBoundFor a.bounds t.seq = some e.1 then (e.1, addT t e.2)
          else e) e).1 = e.1 := by
      intro e
      show (if stripeBoundFor a.bounds t.seq = some e.1
        then ((e.1, addT t e.2) : Nat × Rep α) else e).1 = e.1
      split <;> rfl
    show (match (Agg.add t a).stripes.find? (fun e => decide (e.1 = b)) with
      | some e => csd e.2 x s
      | none => false) =
      (match a.stripes.find? (fun e => decide (e.1 = b)) with
      | some e => csd e.2 x s
      | none => false)
    have hmap : (Agg.add t a).stripes = a.stripes.map
        (fun e => if stripeBoundFor a.bounds t.seq = some e.1 then (e.1, addT t e.2) else e) :=
      rfl
    rw [hmap, find?_map_fst_preserving _ b _ hf]
    cases hfind : a.stripes.find? (fun e => decide (e.1 = b)) with
    | none => rfl
    | some e =>
      have he : e.1 = b := by
        have := List.find?_some hfind
        simpa using this
      have hno : stripeBoundFor a.bounds t.seq ≠ some e.1 := by
        rw [he]
        rw [hsb] at hne
        exact fun hh => hne hh.symm
      show csd (if stripeBoundFor a.bounds t.seq = some e.1
        then ((e.1, addT t e.2) : Nat × Rep α) else e).2 x s = csd e.2 x s
      rw [if_neg hno]

theorem agg_add_preserves_other (a : Agg α) (t : Tomb α) (e : Nat × Rep α)
    (he : e ∈ a.stripes) (hne : stripeBoundFor a.bounds t.seq ≠ some e.1) :
    e ∈ (Agg.add t a).stripes := by
  have hfe : (fun e : Nat × Rep α =>
      if stripeBoundFor a.bounds t.seq = some e.1 then (e.1, addT t e.2) else e) e = e :=
    if_neg hne
  have := List.mem_map_of_mem
    (fun e : Nat × Rep α =>
      if stripeBoundFor a.bounds t.seq = some e.1 then (e.1, addT t e.2) else e) he
  rw [hfe] at this
  exact this

/-- C3: stripe routing.  For an aggregator initialized with snapshot set
`snaps`, `GetRangeDelMap(s)` (embedded as `stripeBoundFor`, the
`upper_bound(s - 1)` lookup for `s > 0`, else the first stripe) selects
exactly the stripe whose upper bound is the least element of
`snaps ∪ {kMaxSequenceNumber}` that is `≥ s`.  Consequently a tombstone is
stored in exactly its own stripe (all other stripes are unchanged by the
add), and a tombstone routed to a different stripe than a query never
changes the query's `ShouldDelete` answer. -/
theorem c3_stripe_routing (snaps : List Nat) (s : Nat) (hs : s ≤ MAXSEQ) :
    (∃ b, stripeBoundFor (initBounds snaps) s = some b
      ∧ (b ∈ snaps ∨ b = MAXSEQ) ∧ s ≤ b
      ∧ ∀ u, (u ∈ snaps ∨ u = MAXSEQ) → s ≤ u → b ≤ u) ∧
    (∀ (a : Agg α) (t : Tomb α) (x : α), a.bounds = initBounds snaps →
      stripeBoundFor (initBounds snaps) s ≠ stripeBoundFor (initBounds snaps) t.seq →
      (Agg.add t a).shouldDelete x s = a.shouldDelete x s) ∧
    (∀ (a : Agg α) (t : Tomb α) (e : Nat × Rep α), a.bounds = initBounds snaps →
      e ∈ a.stripes → stripeBoundFor (initBounds snaps) t.seq ≠ some e.1 →
      e ∈ (Agg.add t a).stripes) := by
  refine ⟨?_, ?_, ?_⟩
  · obtain ⟨b, h1, h2, h3, h4⟩ := stripeBoundFor_least (initBounds snaps) s
      (initBounds_pairwise snaps) ((mem_initBounds snaps MAXSEQ).mpr (Or.inr rfl)) hs
    exact ⟨b, h1, (mem_initBounds snaps b).mp h2, h3,
      fun u hu hsu => h4 u ((mem_initBounds snaps u).mpr hu) hsu⟩
  · intro a t x hb hne
    exact shouldDelete_other_stripe a t x s (by rw [hb]; exact hne)
  · intro a t e hb he hne
    exact agg_add_preserves_other a t e he (by rw [hb]; exact hne)

/-- Witness for `c3_stripe_routing` with snapshots `{3, 7}` and sequence
number `5`: the selected stripe bound is `7`. -/
theorem c3_stripe_routing_witness :
    ((∃ b, stripeBoundFor (initBounds [3, 7]) 5 = some b
      ∧ (b ∈ [3, 7] ∨ b = MAXSEQ) ∧ 5 ≤ b
      ∧ ∀ u, (u ∈ [3, 7] ∨ u = MAXSEQ) → 5 ≤ u → b ≤ u) ∧
    (∀ (a : Agg Nat) (t : Tomb Nat) (x : Nat), a.bounds = initBounds [3, 7] →
      stripeBoundFor (initBounds [3, 7]) 5 ≠ stripeBoundFor (initBounds [3, 7]) t.seq →
      (Agg.add t a).shouldDelete x 5 = a.shouldDelete x 5) ∧
    (∀ (a : Agg Nat) (t : Tomb Nat) (e : Nat × Rep Nat), a.bounds = initBounds [3, 7] →
      e ∈ a.stripes → stripeBoundFor (initBounds [3, 7]) t.seq ≠ some e.1 →
      e ∈ (Agg.add t a).stripes)) ∧
    stripeBoundFor (initBounds [3, 7]) 5 = some 7 :=
  ⟨c3_stripe_routing [3, 7] 5 (by simp [MAXSEQ]), by decide⟩

end RangeDel

namespace RangeDel

variable {α : Type} [LinearOrder α]

theorem getLast?_append_right {β : Type} (xs ys : List β) (h : ys ≠ []) :
    (xs ++ ys).getLast? = ys.getLast? := by
  induction xs with
  | nil => rfl
  | cons x xs ih =>
    rw [List.cons_append]
    cases hc : xs ++ ys with
    | nil =>
      rcases List.append_eq_nil.mp hc with ⟨-, h2⟩
      exact absurd h2 h
    | cons z zs =>
      rw [hc] at ih
      rw [List.getLast?_cons_cons, ih]

theorem dropLast_append_getLast?_eq {β : Type} (l : List β) (e : β)
    (h : l.getLast? = some e) : l.dropLast ++ [e] = l := by
  have hl : l ≠ [] := by
    intro hc
    rw [hc] at h
    cases h
  have he : l.getLast hl = e := by
    have h2 := List.getLast?_eq_getLast l hl
    rw [h2] at h
    exact Option.some.inj h
  rw [← he]
  exact List.dropLast_append_getLast hl

theorem mem_of_getLast?_eq {β : Type} (l : List β) (e : β) (h : l.getLast? = some e) :
    e ∈ l := by
  rw [← dropLast_append_getLast?_eq l e h]
  exact List.mem_append_right _ (List.mem_cons_self _ _)

theorem takeWhile_append_of_all {β : Type} (p : β → Bool) (xs ys : List β)
    (hx : ∀ x ∈ xs, p x = true) (hy : ∀ y ∈ ys, p y = false) :
    (xs ++ ys).takeWhile p = xs := by
  induction xs with
  | nil =>
    cases ys with
    | nil => rfl
    | cons y ys =>
      rw [List.nil_append, List.takeWhile_cons, if_neg (by simp [hy y (List.mem_cons_self _ _)])]
  | cons x xs ih =>
    rw [List.cons_append, List.takeWhile_cons, if_pos (hx x (List.mem_cons_self _ _))]
    rw [ih (fun z hz => hx z (List.mem_cons_of_mem _ hz))]

theorem dropWhile_append_of_all {β : Type} (p : β → Bool) (xs ys : List β)
    (hx : ∀ x ∈ xs, p x = true) (hy : ∀ y ∈ ys, p y = false) :
    (xs ++ ys).dropWhile p = ys := by
  induction xs with
  | nil =>
    cases ys with
    | nil => rfl
    | cons y ys =>
      rw [List.nil_append, List.dropWhile_cons, if_neg (by simp [hy y (List.mem_cons_self _ _)])]
  | cons x xs ih =>
    rw [List.cons_append, List.dropWhile_cons, if_pos (hx x (List.mem_cons_self _ _))]
    exact ih (fun z hz => hx z (List.mem_cons_of_mem _ hz))

theorem mem_takeWhile_pLE_le (a : α) (l : Rep α) :
    ∀ x ∈ l.takeWhile (pLE a), x.1 ≤ a := by
  induction l with
  | nil => intro x hx; cases hx
  | cons y rest ih =>
    rw [List.takeWhile_cons]
    by_cases hy : pLE a y = true
    · rw [hy]
      intro x hx
      rcases List.mem_cons.mp hx with rfl | hx'
      · simpa [pLE] using hy
      · exact ih x hx'
    · rw [Bool.not_eq_true] at hy
      rw [hy]
      intro x hx
      cases hx

theorem mem_dropWhile_pLE_gt (a : α) (l : Rep α) (hp : l.Pairwise RK) :
    ∀ x ∈ l.dropWhile (pLE a), a < x.1 := by
  induction l with
  | nil => intro x hx; cases hx
  | cons y rest ih =>
    rw [List.pairwise_cons] at hp
    rw [List.dropWhile_cons]
    by_cases hy : pLE a y = true
    · rw [hy]
      exact ih hp.2
    · rw [Bool.not_eq_true] at hy
      rw [hy]
      have hya : a < y.1 := by
        have : ¬y.1 ≤ a := by simpa [pLE] using hy
        exact lt_of_not_le this
      intro x hx
      rcases List.mem_cons.mp hx with rfl | hx'
      · exact hya
      · exact lt_trans hya (hp.1 x hx')

theorem mem_dropWhile_pLT_ge (e : α) (l : Rep α) (hp : l.Pairwise RK) :
    ∀ x ∈ l.dropWhile (pLT e), e ≤ x.1 := by
  induction l with
  | nil => intro x hx; cases hx
  | cons y rest ih =>
    rw [List.pairwise_cons] at hp
    rw [List.dropWhile_cons]
    by_cases hy : pLT e y = true
    · rw [hy]
      exact ih hp.2
    · rw [Bool.not_eq_true] at hy
      rw [hy]
      have hye : e ≤ y.1 := by
        have : ¬y.1 < e := by simpa [pLT] using hy
        exact le_of_not_lt this
      intro x hx
      rcases List.mem_cons.mp hx with rfl | hx'
      · exact hye
      · exact le_of_lt (lt_of_le_of_lt hye (hp.1 x hx'))

/-- Seqno of the last entry, with an explicit default for the empty list
(the running value of `prev_seq()` before the walked segment). -/
def lastSeqD (l : Rep α) (d : Nat) : Nat := (l.getLast?.map Prod.snd).getD d

theorem lastSeq_eq_lastSeqD (l : Rep α) : lastSeq l = lastSeqD l 0 := rfl

theorem lastSeqD_cons (k : α) (v : Nat) (l : Rep α) (d : Nat) :
    lastSeqD ((k, v) :: l) d = lastSeqD l v := by
  cases l with
  | nil => rfl
  | cons y ys =>
    unfold lastSeqD
    rw [List.getLast?_cons_cons]
    cases hys : (y :: ys).getLast? with
    | none =>
      rw [List.getLast?_eq_none_iff] at hys
      cases hys
    | some z => rfl

theorem lastSeqD_append (xs ys : Rep α) (d : Nat) (h : ys ≠ []) :
    lastSeqD (xs ++ ys) d = lastSeqD ys d := by
  unfold lastSeqD
  rw [getLast?_append_right xs ys h]

theorem walk_nil (q : Nat) (e : α) (p es : Nat) : walk q e [] p es = ⟨[], [], p, es⟩ := rfl

theorem walk_cons_stop (q : Nat) (e k : α) (s : Nat) (rest : Rep α) (p es : Nat)
    (hk : ¬k < e) : walk q e ((k, s) :: rest) p es = ⟨[], (k, s) :: rest, p, es⟩ := by
  unfold walk
  rw [if_neg hk]

theorem walk_cons_skip (q : Nat) (e k : α) (s : Nat) (rest : Rep α) (p es : Nat)
    (hk : k < e) (hs : ¬s < q) :
    walk q e ((k, s) :: rest) p es =
      ⟨(k, s) :: (walk q e rest s es).out, (walk q e rest s es).rem,
        (walk q e rest s es).prev, (walk q e rest s es).endSeq⟩ := by
  simp only [walk]
  rw [if_pos hk, if_neg hs]

theorem walk_cons_erase (q : Nat) (e k : α) (s : Nat) (rest : Rep α) (p es : Nat)
    (hk : k < e) (hs : s < q) (hq : q = p) :
    walk q e ((k, s) :: rest) p es = walk q e rest p s := by
  simp only [walk]
  rw [if_pos hk, if_pos hs, if_pos hq]

theorem walk_cons_rewrite (q : Nat) (e k : α) (s : Nat) (rest : Rep α) (p es : Nat)
    (hk : k < e) (hs : s < q) (hq : ¬q = p) :
    walk q e ((k, s) :: rest) p es =
      ⟨(k, q) :: (walk q e rest q s).out, (walk q e rest q s).rem,
        (walk q e rest q s).prev, (walk q e rest q s).endSeq⟩ := by
  simp only [walk]
  rw [if_pos hk, if_pos hs, if_neg hq]

theorem walk_rem (q : Nat) (e : α) (l : Rep α) (p es : Nat) :
    (walk q e l p es).rem = l.dropWhile (pLT e) := by
  induction l generalizing p es with
  | nil => rfl
  | cons x rest ih =>
    obtain ⟨k, s⟩ := x
    by_cases hk : k < e
    · have hd : List.dropWhile (pLT e) ((k, s) :: rest) = List.dropWhile (pLT e) rest := by
        rw [List.dropWhile_cons, if_pos (by simp [pLT, hk])]
      rw [hd]
      by_cases hs : s < q
      · by_cases hq : q = p
        · rw [walk_cons_erase q e k s rest p es hk hs hq]
          exact ih p s
        · rw [walk_cons_rewrite q e k s rest p es hk hs hq]
          exact ih q s
      · rw [walk_cons_skip q e k s rest p es hk hs]
        exact ih s es
    · rw [walk_cons_stop q e k s rest p es hk, List.dropWhile_cons,
        if_neg (by simp [pLT, hk])]

theorem walk_out_sublist (q : Nat) (e : α) (l : Rep α) (p es : Nat) :
    ((walk q e l p es).out.map Prod.fst).Sublist (l.map Prod.fst) := by
  induction l generalizing p es with
  | nil =>
    rw [walk_nil]
  | cons x rest ih =>
    obtain ⟨k, s⟩ := x
    by_cases hk : k < e
    · by_cases hs : s < q
      · by_cases hq : q = p
        · rw [walk_cons_erase q e k s rest p es hk hs hq]
          exact (ih p s).cons _
        · rw [walk_cons_rewrite q e k s rest p es hk hs hq]
          simp only [List.map_cons]
          exact (ih q s).cons₂ _
      · rw [walk_cons_skip q e k s rest p es hk hs]
        simp only [List.map_cons]
        exact (ih s es).cons₂ _
    · rw [walk_cons_stop q e k s rest p es hk]
      simp

theorem walk_out_keys_lt (q : Nat) (e : α) (l : Rep α) (p es : Nat) :
    ∀ x ∈ (walk q e l p es).out, x.1 < e := by
  induction l generalizing p es with
  | nil => intro x hx; cases hx
  | cons y rest ih =>
    obtain ⟨k, s⟩ := y
    by_cases hk : k < e
    · by_cases hs : s < q
      · by_cases hq : q = p
        · rw [walk_cons_erase q e k s rest p es hk hs hq]
          exact ih p s
        · rw [walk_cons_rewrite q e k s rest p es hk hs hq]
          intro x hx
          rcases List.mem_cons.mp hx with rfl | hx'
          · exact hk
          · exact ih q s x hx'
      · rw [walk_cons_skip q e k s rest p es hk hs]
        intro x hx
        rcases List.mem_cons.mp hx with rfl | hx'
        · exact hk
        · exact ih s es x hx'
    · rw [walk_cons_stop q e k s rest p es hk]
      intro x hx
      cases hx

theorem walk_out_seq_ge (q : Nat) (e : α) (l : Rep α) (p es : Nat) :
    ∀ x ∈ (walk q e l p es).out, q ≤ x.2 := by
  induction l generalizing p es with
  | nil => intro x hx; cases hx
  | cons y rest ih =>
    obtain ⟨k, s⟩ := y
    by_cases hk : k < e
    · by_cases hs : s < q
      · by_cases hq : q = p
        · rw [walk_cons_erase q e k s rest p es hk hs hq]
          exact ih p s
        · rw [walk_cons_rewrite q e k s rest p es hk hs hq]
          intro x hx
          rcases List.mem_cons.mp hx with rfl | hx'
          · exact le_refl _
          · exact ih q s x hx'
      · rw [walk_cons_skip q e k s rest p es hk hs]
        intro x hx
        rcases List.mem_cons.mp hx with rfl | hx'
        · exact le_of_not_lt hs
        · exact ih s es x hx'
    · rw [walk_cons_stop q e k s rest p es hk]
      intro x hx
      cases hx

theorem walk_prev_eq (q : Nat) (e : α) (l : Rep α) (p es : Nat) :
    (walk q e l p es).prev = lastSeqD (walk q e l p es).out p := by
  induction l generalizing p es with
  | nil => rfl
  | cons y rest ih =>
    obtain ⟨k, s⟩ := y
    by_cases hk : k < e
    · by_cases hs : s < q
      · by_cases hq : q = p
        · rw [walk_cons_erase q e k s rest p es hk hs hq]
          exact ih p s
        · rw [walk_cons_rewrite q e k s rest p es hk hs hq]
          show (walk q e rest q s).prev = lastSeqD ((k, q) :: (walk q e rest q s).out) p
          rw [lastSeqD_cons]
          exact ih q s
      · rw [walk_cons_skip q e k s rest p es hk hs]
        show (walk q e rest s es).prev = lastSeqD ((k, s) :: (walk q e rest s es).out) p
        rw [lastSeqD_cons]
        exact ih s es
    · rw [walk_cons_stop q e k s rest p es hk]
      rfl

end RangeDel

namespace RangeDel

variable {α : Type} [LinearOrder α]

theorem walk_endSeq_qzero (e : α) (l : Rep α) (p es : Nat) :
    (walk 0 e l p es).endSeq = es := by
  induction l generalizing p es with
  | nil => rfl
  | cons y rest ih =>
    obtain ⟨k, s⟩ := y
    by_cases hk : k < e
    · have hs : ¬s < 0 := Nat.not_lt_zero s
      rw [walk_cons_skip 0 e k s rest p es hk hs]
      exact ih s es
    · rw [walk_cons_stop 0 e k s rest p es hk]

theorem walk_endSeq_zero (q : Nat) (e : α) (l : Rep α) (p es : Nat) (hq : 0 < q)
    (hrem : (walk q e l p es).rem = []) (hlast : l.getLast?.map Prod.snd = some 0) :
    (walk q e l p es).endSeq = 0 := by
  induction l generalizing p es with
  | nil => simp at hlast
  | cons y rest ih =>
    obtain ⟨k, s⟩ := y
    by_cases hk : k < e
    · cases rest with
      | nil =>
        have hs0 : s = 0 := by
          simp [List.getLast?] at hlast
          omega
        subst hs0
        by_cases hq' : q = p
        · rw [walk_cons_erase q e k 0 [] p es hk hq hq']
          rfl
        · rw [walk_cons_rewrite q e k 0 [] p es hk hq hq']
          rfl
      | cons z zs =>
        have hlast' : (z :: zs).getLast?.map Prod.snd = some 0 := by
          rw [List.getLast?_cons_cons] at hlast
          exact hlast
        by_cases hs : s < q
        · by_cases hq' : q = p
          · rw [walk_cons_erase q e k s (z :: zs) p es hk hs hq'] at hrem ⊢
            exact ih p s hrem hlast'
          · rw [walk_cons_rewrite q e k s (z :: zs) p es hk hs hq'] at hrem ⊢
            exact ih q s hrem hlast'
        · rw [walk_cons_skip q e k s (z :: zs) p es hk hs] at hrem ⊢
          exact ih s es hrem hlast'
    · rw [walk_cons_stop q e k s rest p es hk] at hrem
      cases hrem

theorem walk_prev_of_rem_nil (q : Nat) (e : α) (l : Rep α) (p es : Nat) :
    l ≠ [] → (walk q e l p es).rem = [] → l.getLast?.map Prod.snd = some 0 →
    (walk q e l p es).prev = q := by
  induction l generalizing p es with
  | nil => intro hne _ _; exact absurd rfl hne
  | cons y rest ih =>
    intro _ hrem hlast
    obtain ⟨k, s⟩ := y
    by_cases hk : k < e
    · cases rest with
      | nil =>
        have hs0 : s = 0 := by
          simp [List.getLast?] at hlast
          omega
        subst hs0
        by_cases hs : (0 : Nat) < q
        · by_cases hq' : q = p
          · rw [walk_cons_erase q e k 0 [] p es hk hs hq']
            exact hq'.symm
          · rw [walk_cons_rewrite q e k 0 [] p es hk hs hq']
            rfl
        · rw [walk_cons_skip q e k 0 [] p es hk (by omega)]
          show (0 : Nat) = q
          omega
      | cons z zs =>
        have hlast' : (z :: zs).getLast?.map Prod.snd = some 0 := by
          rw [List.getLast?_cons_cons] at hlast
          exact hlast
        by_cases hs : s < q
        · by_cases hq' : q = p
          · rw [walk_cons_erase q e k s (z :: zs) p es hk hs hq'] at hrem ⊢
            exact ih p s (List.cons_ne_nil _ _) hrem hlast'
          · rw [walk_cons_rewrite q e k s (z :: zs) p es hk hs hq'] at hrem ⊢
            exact ih q s (List.cons_ne_nil _ _) hrem hlast'
        · rw [walk_cons_skip q e k s (z :: zs) p es hk hs] at hrem ⊢
          exact ih s es (List.cons_ne_nil _ _) hrem hlast'
    · rw [walk_cons_stop q e k s rest p es hk] at hrem
      cases hrem

theorem walk_skip_all (q : Nat) (e : α) (l : Rep α) (p es : Nat)
    (h : ∀ x ∈ l, x.1 < e → q ≤ x.2) :
    walk q e l p es =
      ⟨l.takeWhile (pLT e), l.dropWhile (pLT e), lastSeqD (l.takeWhile (pLT e)) p, es⟩ := by
  induction l generalizing p es with
  | nil => rfl
  | cons y rest ih =>
    obtain ⟨k, s⟩ := y
    by_cases hk : k < e
    · have hs : ¬s < q := not_lt.mpr (h (k, s) (List.mem_cons_self _ _) hk)
      rw [walk_cons_skip q e k s rest p es hk hs,
        ih s es (fun z hz hze => h z (List.mem_cons_of_mem _ hz) hze)]
      rw [List.takeWhile_cons, if_pos (show pLT e (k, s) = true by simp [pLT, hk]),
        List.dropWhile_cons, if_pos (show pLT e (k, s) = true by simp [pLT, hk]),
        lastSeqD_cons]
    · rw [walk_cons_stop q e k s rest p es hk,
        List.takeWhile_cons, if_neg (show ¬pLT e (k, s) = true by simp [pLT, hk]),
        List.dropWhile_cons, if_neg (show ¬pLT e (k, s) = true by simp [pLT, hk])]
      rfl

theorem setStart_eq_none (k : α) (s : Nat) (lo : Rep α) (h : lo.getLast? = none) :
    setStart k s lo = [(k, s)] := by
  unfold setStart
  rw [h]

theorem setStart_eq_some (k : α) (s : Nat) (lo : Rep α) (e : α × Nat)
    (h : lo.getLast? = some e) :
    setStart k s lo = if e.1 = k then lo.dropLast ++ [(k, s)] else lo ++ [(k, s)] := by
  unfold setStart
  rw [h]

theorem setStart_getLast? (k : α) (s : Nat) (lo : Rep α) :
    (setStart k s lo).getLast? = some (k, s) := by
  cases hl : lo.getLast? with
  | none =>
    rw [setStart_eq_none k s lo hl]
    rfl
  | some e =>
    rw [setStart_eq_some k s lo e hl]
    by_cases heq : e.1 = k
    · rw [if_pos heq, getLast?_append_right _ _ (List.cons_ne_nil _ _)]
      rfl
    · rw [if_neg heq, getLast?_append_right _ _ (List.cons_ne_nil _ _)]
      rfl

theorem lastSeq_startLo (t : Tomb α) (lo : Rep α) :
    lastSeq (startLo t lo) = startP1 t lo := by
  unfold startLo startP1
  split
  · unfold lastSeq
    rw [setStart_getLast?]
    rfl
  · rfl

theorem startP1_not_lt (t : Tomb α) (lo : Rep α) : ¬startP1 t lo < t.seq := by
  unfold startP1
  split
  · exact lt_irrefl _
  · rename_i h
    exact h

theorem startP1_ge (t : Tomb α) (lo : Rep α) : t.seq ≤ startP1 t lo :=
  le_of_not_lt (fun hc => startP1_not_lt t lo (by unfold startP1 at *; omega))

theorem mem_setStart (k : α) (s : Nat) (lo : Rep α) :
    ∀ x ∈ setStart k s lo, x = (k, s) ∨ x ∈ lo := by
  cases hl : lo.getLast? with
  | none =>
    rw [setStart_eq_none k s lo hl]
    intro x hx
    rcases List.mem_cons.mp hx with rfl | hx'
    · exact Or.inl rfl
    · cases hx'
  | some e =>
    rw [setStart_eq_some k s lo e hl]
    by_cases heq : e.1 = k
    · rw [if_pos heq]
      intro x hx
      rcases List.mem_append.mp hx with hx' | hx'
      · exact Or.inr ((List.dropLast_sublist lo).subset hx')
      · rcases List.mem_cons.mp hx' with rfl | hx''
        · exact Or.inl rfl
        · cases hx''
    · rw [if_neg heq]
      intro x hx
      rcases List.mem_append.mp hx with hx' | hx'
      · exact Or.inr hx'
      · rcases List.mem_cons.mp hx' with rfl | hx''
        · exact Or.inl rfl
        · cases hx''

theorem mem_startLo_le (t : Tomb α) (lo : Rep α) (hle : ∀ x ∈ lo, x.1 ≤ t.start) :
    ∀ x ∈ startLo t lo, x.1 ≤ t.start := by
  unfold startLo
  split
  · intro x hx
    rcases mem_setStart t.start t.seq lo x hx with rfl | hx'
    · exact le_refl _
    · exact hle x hx'
  · exact hle

theorem pairwise_setStart (k : α) (s : Nat) (lo : Rep α) (hp : lo.Pairwise RK)
    (hle : ∀ x ∈ lo, x.1 ≤ k) : (setStart k s lo).Pairwise RK := by
  cases hl : lo.getLast? with
  | none =>
    rw [setStart_eq_none k s lo hl]
    simp
  | some e =>
    have hdecomp : lo.dropLast ++ [e] = lo := dropLast_append_getLast?_eq lo e hl
    have hp2 : (lo.dropLast ++ [e]).Pairwise RK := by rw [hdecomp]; exact hp
    rw [List.pairwise_append] at hp2
    obtain ⟨hpd, -, hcross⟩ := hp2
    rw [setStart_eq_some k s lo e hl]
    by_cases heq : e.1 = k
    · rw [if_pos heq]
      rw [List.pairwise_append]
      refine ⟨hpd, List.pairwise_singleton _ _, ?_⟩
      intro x hx y hy
      rcases List.mem_cons.mp hy with rfl | hy'
      · show x.1 < k
        rw [← heq]
        exact hcross x hx e (List.mem_cons_self _ _)
      · cases hy'
    · rw [if_neg heq]
      have helo : e ∈ lo := mem_of_getLast?_eq lo e hl
      have helt : e.1 < k := lt_of_le_of_ne (hle e helo) heq
      rw [List.pairwise_append]
      refine ⟨hp, List.pairwise_singleton _ _, ?_⟩
      intro x hx y hy
      rcases List.mem_cons.mp hy with rfl | hy'
      · show x.1 < k
        rw [← hdecomp] at hx
        rcases List.mem_append.mp hx with hx' | hx'
        · exact lt_trans (hcross x hx' e (List.mem_cons_self _ _)) helt
        · rcases List.mem_cons.mp hx' with rfl | hx''
          · exact helt
          · cases hx''
      · cases hy'

theorem pairwise_startLo (t : Tomb α) (lo : Rep α) (hp : lo.Pairwise RK)
    (hle : ∀ x ∈ lo, x.1 ≤ t.start) : (startLo t lo).Pairwise RK := by
  unfold startLo
  split
  · exact pairwise_setStart t.start t.seq lo hp hle
  · exact hp

end RangeDel

namespace RangeDel

variable {α : Type} [LinearOrder α]

theorem finishTail_cases (t : Tomb α) (lo : Rep α) (r : WalkRes α) :
    (finishTail t lo r = (t.stop, r.endSeq) :: r.rem ∧ r.prev = t.seq ∧
      headKeyIs r.rem t.stop = false ∧ lastKeyIs lo t.stop = false) ∨
    (finishTail t lo r = r.rem ∧
      ¬(r.prev = t.seq ∧ headKeyIs r.rem t.stop = false ∧ lastKeyIs lo t.stop = false)) := by
  unfold finishTail
  split
  · rename_i h
    exact Or.inl ⟨rfl, h.1, h.2.1, h.2.2⟩
  · rename_i h
    exact Or.inr ⟨rfl, h⟩

theorem gt_of_ge_headKeyIs_false (a : α) (l : Rep α) (hp : l.Pairwise RK)
    (hge : ∀ x ∈ l, a ≤ x.1) (hhd : headKeyIs l a = false) : ∀ x ∈ l, a < x.1 := by
  cases l with
  | nil => intro x hx; cases hx
  | cons h0 rest =>
    have h0ne : h0.1 ≠ a := by simpa [headKeyIs] using hhd
    have h0gt : a < h0.1 := lt_of_le_of_ne (hge h0 (List.mem_cons_self _ _)) (Ne.symm h0ne)
    rw [List.pairwise_cons] at hp
    intro x hx
    rcases List.mem_cons.mp hx with rfl | hx'
    · exact h0gt
    · exact lt_trans h0gt (hp.1 x hx')

theorem lt_of_le_lastKeyIs_false (a : α) (l : Rep α) (hp : l.Pairwise RK)
    (hle : ∀ x ∈ l, x.1 ≤ a) (hlk : lastKeyIs l a = false) : ∀ x ∈ l, x.1 < a := by
  cases hl : l.getLast? with
  | none =>
    have : l = [] := List.getLast?_eq_none_iff.mp hl
    subst this
    intro x hx
    cases hx
  | some e =>
    have hdecomp := dropLast_append_getLast?_eq l e hl
    have hene : e.1 ≠ a := by simpa [lastKeyIs, hl] using hlk
    have helast : e.1 < a := lt_of_le_of_ne (hle e (mem_of_getLast?_eq l e hl)) hene
    have hp2 : (l.dropLast ++ [e]).Pairwise RK := by rw [hdecomp]; exact hp
    rw [List.pairwise_append] at hp2
    intro x hx
    rw [← hdecomp] at hx
    rcases List.mem_append.mp hx with hx' | hx'
    · exact lt_trans (hp2.2.2 x hx' e (List.mem_cons_self _ _)) helast
    · rcases List.mem_cons.mp hx' with rfl | hx''
      · exact helast
      · cases hx''

theorem add_pieces_pairwise (t : Tomb α) (lo hi : Rep α) (hts : t.start ≤ t.stop)
    (hp_lo : lo.Pairwise RK) (hp_hi : hi.Pairwise RK)
    (h_lo_le : ∀ x ∈ lo, x.1 ≤ t.start) (h_hi_gt : ∀ x ∈ hi, t.start < x.1) :
    (startLo t lo ++ (walk t.seq t.stop hi (startP1 t lo) (startES t lo)).out ++
      finishTail t (startLo t lo)
        (walk t.seq t.stop hi (startP1 t lo) (startES t lo))).Pairwise RK := by
  set L := startLo t lo with hL
  set r := walk t.seq t.stop hi (startP1 t lo) (startES t lo) with hr
  set T := finishTail t L r with hT
  have hp_L : L.Pairwise RK := pairwise_startLo t lo hp_lo h_lo_le
  have h_L_le : ∀ x ∈ L, x.1 ≤ t.start := mem_startLo_le t lo h_lo_le
  have h_out_sub : (r.out.map Prod.fst).Sublist (hi.map Prod.fst) := walk_out_sublist _ _ _ _ _
  have hp_hi_keys : (hi.map Prod.fst).Pairwise (· < ·) := by
    rw [List.pairwise_map]
    exact hp_hi
  have hp_out : r.out.Pairwise RK := by
    have h1 := List.Pairwise.sublist h_out_sub hp_hi_keys
    rw [List.pairwise_map] at h1
    exact h1
  have h_out_lt : ∀ x ∈ r.out, x.1 < t.stop := walk_out_keys_lt _ _ _ _ _
  have h_out_gt : ∀ x ∈ r.out, t.start < x.1 := by
    intro x hx
    have hxm : x.1 ∈ hi.map Prod.fst := h_out_sub.subset (List.mem_map_of_mem _ hx)
    obtain ⟨y, hy, hxy⟩ := List.mem_map.mp hxm
    rw [← hxy]
    exact h_hi_gt y hy
  have h_rem_eq : r.rem = hi.dropWhile (pLT t.stop) := walk_rem _ _ _ _ _
  have h_rem_ge : ∀ x ∈ r.rem, t.stop ≤ x.1 := by
    rw [h_rem_eq]
    exact mem_dropWhile_pLT_ge t.stop hi hp_hi
  have hp_rem : r.rem.Pairwise RK := by
    rw [h_rem_eq]
    exact List.Pairwise.sublist (List.dropWhile_sublist _) hp_hi
  have h_rem_gt_start : ∀ y ∈ r.rem, t.start < y.1 := by
    rw [h_rem_eq]
    intro y hy
    exact h_hi_gt y ((List.dropWhile_sublist _).subset hy)
  have hp_T : T.Pairwise RK := by
    rcases finishTail_cases t L r with ⟨heq, -, hhd, -⟩ | ⟨heq, -⟩
    · rw [hT, heq]
      rw [List.pairwise_cons]
      exact ⟨gt_of_ge_headKeyIs_false t.stop r.rem hp_rem h_rem_ge hhd, hp_rem⟩
    · rw [hT, heq]
      exact hp_rem
  have h_T_ge : ∀ x ∈ T, t.stop ≤ x.1 := by
    rcases finishTail_cases t L r with ⟨heq, -, -, -⟩ | ⟨heq, -⟩
    · rw [hT, heq]
      intro x hx
      rcases List.mem_cons.mp hx with rfl | hx'
      · exact le_refl _
      · exact h_rem_ge x hx'
    · rw [hT, heq]
      exact h_rem_ge
  refine (List.pairwise_append).mpr ⟨(List.pairwise_append).mpr ⟨hp_L, hp_out, ?_⟩, hp_T, ?_⟩
  · intro x hx y hy
    exact lt_of_le_of_lt (h_L_le x hx) (h_out_gt y hy)
  · intro x hx y hy
    rcases List.mem_append.mp hx with hx' | hx'
    · show x.1 < y.1
      rcases finishTail_cases t L r with ⟨heq, -, -, hlk⟩ | ⟨heq, -⟩
      · rw [hT, heq] at hy
        rcases List.mem_cons.mp hy with rfl | hy'
        · exact lt_of_le_lastKeyIs_false t.stop L hp_L
            (fun z hz => le_trans (h_L_le z hz) hts) hlk x hx'
        · exact lt_of_le_of_lt (h_L_le x hx') (h_rem_gt_start y hy')
      · rw [hT, heq] at hy
        exact lt_of_le_of_lt (h_L_le x hx') (h_rem_gt_start y hy)
    · show x.1 < y.1
      exact lt_of_lt_of_le (h_out_lt x hx') (h_T_ge y hy)

theorem addT_pairwise (t : Tomb α) (rep : Rep α) (hts : t.start ≤ t.stop)
    (hp : rep.Pairwise RK) : (addT t rep).Pairwise RK := by
  unfold addT
  exact add_pieces_pairwise t (rep.takeWhile (pLE t.start)) (rep.dropWhile (pLE t.start)) hts
    (List.Pairwise.sublist (List.takeWhile_sublist _) hp)
    (List.Pairwise.sublist (List.dropWhile_sublist _) hp)
    (mem_takeWhile_pLE_le t.start rep)
    (mem_dropWhile_pLE_gt t.start rep hp)

theorem foldl_addT_pairwise (ts : List (Tomb α)) : ∀ acc : Rep α, acc.Pairwise RK →
    (∀ t ∈ ts, t.start ≤ t.stop) → (ts.foldl (fun m t => addT t m) acc).Pairwise RK := by
  induction ts with
  | nil =>
    intro acc hacc _
    exact hacc
  | cons t ts ih =>
    intro acc hacc h
    exact ih (addT t acc) (addT_pairwise t acc (h t (List.mem_cons_self _ _)) hacc)
      (fun u hu => h u (List.mem_cons_of_mem _ hu))

theorem buildCollapsed_pairwise (ts : List (Tomb α)) (h : ∀ t ∈ ts, t.start ≤ t.stop) :
    (buildCollapsed ts).Pairwise RK :=
  foldl_addT_pairwise ts [] List.Pairwise.nil h

end RangeDel

namespace RangeDel

variable {α : Type} [LinearOrder α]

theorem lastKeyIs_false_of_lt (a : α) (l : Rep α) (hlt : ∀ x ∈ l, x.1 < a) :
    lastKeyIs l a = false := by
  unfold lastKeyIs
  cases hl : l.getLast? with
  | none => rfl
  | some e =>
    have : e.1 ≠ a := ne_of_lt (hlt e (mem_of_getLast?_eq l e hl))
    simp [this]

theorem add_pieces_lastSeq (t : Tomb α) (lo hi : Rep α) (hts : t.start < t.stop)
    (h_lo_le : ∀ x ∈ lo, x.1 ≤ t.start)
    (h_hi_nil : hi = [] → lastSeq lo = 0)
    (h_hi_last : hi ≠ [] → hi.getLast?.map Prod.snd = some 0) :
    lastSeq (startLo t lo ++ (walk t.seq t.stop hi (startP1 t lo) (startES t lo)).out ++
      finishTail t (startLo t lo)
        (walk t.seq t.stop hi (startP1 t lo) (startES t lo))) = 0 := by
  set L := startLo t lo with hL
  set r := walk t.seq t.stop hi (startP1 t lo) (startES t lo) with hr
  set T := finishTail t L r with hT
  have h_L_le : ∀ x ∈ L, x.1 ≤ t.start := mem_startLo_le t lo h_lo_le
  have h_L_lastKey : lastKeyIs L t.stop = false :=
    lastKeyIs_false_of_lt t.stop L (fun x hx => lt_of_le_of_lt (h_L_le x hx) hts)
  have h_rem_eq : r.rem = hi.dropWhile (pLT t.stop) := walk_rem _ _ _ _ _
  by_cases hrem : r.rem = []
  · have hprev : r.prev = t.seq := by
      by_cases hhi : hi = []
      · subst hhi
        rw [hr, walk_nil]
        show startP1 t lo = t.seq
        unfold startP1
        rw [h_hi_nil rfl]
        split
        · rfl
        · omega
      · rw [hr]
        refine walk_prev_of_rem_nil t.seq t.stop hi _ _ hhi ?_ (h_hi_last hhi)
        rw [← hr]
        exact hrem
    have hendSeq : r.endSeq = 0 := by
      by_cases hq0 : 0 < t.seq
      · by_cases hhi : hi = []
        · subst hhi
          rw [hr, walk_nil]
          show startES t lo = 0
          unfold startES
          rw [h_hi_nil rfl]
          split
          · rfl
          · rfl
        · rw [hr]
          refine walk_endSeq_zero t.seq t.stop hi _ _ hq0 ?_ (h_hi_last hhi)
          rw [← hr]
          exact hrem
      · have hq : t.seq = 0 := by omega
        rw [hr, hq, walk_endSeq_qzero]
        show startES t lo = 0
        unfold startES
        split
        · rename_i hcon
          rw [hq] at hcon
          omega
        · rfl
    have hTeq : T = [(t.stop, r.endSeq)] := by
      rw [hT]
      unfold finishTail
      rw [if_pos ⟨hprev, by rw [hrem]; rfl, h_L_lastKey⟩, hrem]
    rw [hTeq, hendSeq]
    unfold lastSeq
    rw [getLast?_append_right _ _ (List.cons_ne_nil _ _)]
    rfl
  · have hhi_ne : hi ≠ [] := by
      intro hc
      rw [hc] at h_rem_eq
      simp at h_rem_eq
      exact hrem h_rem_eq
    have hdw_ne : hi.dropWhile (pLT t.stop) ≠ [] := by
      rw [← h_rem_eq]
      exact hrem
    have h_rem_last : r.rem.getLast? = hi.getLast? := by
      rw [h_rem_eq]
      conv_rhs => rw [← List.takeWhile_append_dropWhile (pLT t.stop) hi]
      rw [getLast?_append_right _ _ hdw_ne]
    have hT_last : T.getLast? = r.rem.getLast? := by
      rcases finishTail_cases t L r with ⟨heq, -, -, -⟩ | ⟨heq, -⟩
      · rw [hT, heq, show (t.stop, r.endSeq) :: r.rem = [(t.stop, r.endSeq)] ++ r.rem from rfl,
          getLast?_append_right _ _ hrem]
      · rw [hT, heq]
    have hT_ne : T ≠ [] := by
      rcases finishTail_cases t L r with ⟨heq, -, -, -⟩ | ⟨heq, -⟩
      · rw [hT, heq]
        exact List.cons_ne_nil _ _
      · rw [hT, heq]
        exact hrem
    unfold lastSeq
    rw [getLast?_append_right _ _ hT_ne, hT_last, h_rem_last, h_hi_last hhi_ne]
    rfl

theorem addT_lastSeq (t : Tomb α) (rep : Rep α) (hts : t.start < t.stop)
    (h0 : lastSeq rep = 0) : lastSeq (addT t rep) = 0 := by
  unfold addT
  refine add_pieces_lastSeq t _ _ hts (mem_takeWhile_pLE_le t.start rep) ?_ ?_
  · intro hnil
    have hfull : rep.takeWhile (pLE t.start) = rep := by
      conv_rhs => rw [← List.takeWhile_append_dropWhile (pLE t.start) rep]
      rw [hnil, List.append_nil]
    rw [hfull]
    exact h0
  · intro hne
    have hrep_ne : rep ≠ [] := by
      intro hc
      rw [hc] at hne
      simp at hne
    have h1 : (rep.dropWhile (pLE t.start)).getLast? = rep.getLast? := by
      conv_rhs => rw [← List.takeWhile_append_dropWhile (pLE t.start) rep]
      rw [getLast?_append_right _ _ hne]
    rw [h1]
    unfold lastSeq at h0
    cases hg : rep.getLast? with
    | none =>
      rw [List.getLast?_eq_none_iff] at hg
      exact absurd hg hrep_ne
    | some e =>
      rw [hg] at h0
      simp at h0
      simp [h0]

theorem foldl_addT_lastSeq (ts : List (Tomb α)) : ∀ acc : Rep α,
    lastSeq acc = 0 → (∀ t ∈ ts, t.start < t.stop) →
    lastSeq (ts.foldl (fun m t => addT t m) acc) = 0 := by
  induction ts with
  | nil =>
    intro acc hacc _
    exact hacc
  | cons t ts ih =>
    intro acc hacc h
    exact ih (addT t acc) (addT_lastSeq t acc (h t (List.mem_cons_self _ _)) hacc)
      (fun u hu => h u (List.mem_cons_of_mem _ hu))

end RangeDel

namespace RangeDel

variable {α : Type} [LinearOrder α]

/-- C2, amended: for every `CollapsedRangeDelMap` state reachable from the
empty map by `AddTombstone` calls with non-empty tombstones
(`start_key < end_key`; the counterexample forces this restriction), the
staircase keys are strictly ascending under the user comparator and the
last entry of every non-empty map carries the sentinel seqno `0`.
Consequently every maximal run of entries with non-zero seqno is followed
by an entry with seqno `0`: such a run cannot reach the end of the map
(the last entry is a sentinel), and the entry after a maximal run has
seqno `0` by maximality.  Every prefix of `ts` is itself a valid fold, so
this invariant holds after every intermediate `AddTombstone` as well. -/
theorem c2_staircase_invariant_amended (ts : List (Tomb α))
    (h : ∀ t ∈ ts, t.start < t.stop) :
    List.Pairwise (· < ·) ((buildCollapsed ts).map Prod.fst) ∧
    lastSeq (buildCollapsed ts) = 0 ∧
    ∀ e, (buildCollapsed ts).getLast? = some e → e.2 = 0 := by
  have hpw : (buildCollapsed ts).Pairwise RK :=
    buildCollapsed_pairwise ts (fun t ht => le_of_lt (h t ht))
  have hls : lastSeq (buildCollapsed ts) = 0 :=
    foldl_addT_lastSeq ts [] rfl h
  refine ⟨?_, hls, ?_⟩
  · rw [List.pairwise_map]
    exact hpw
  · intro e he
    unfold lastSeq at hls
    rw [he] at hls
    simpa using hls

/-- Witness for `c2_staircase_invariant_amended` at the concrete tombstone
sequence `[a,c)@5, [b,d)@5` (keys `0, 1, 2, 3`). -/
theorem c2_staircase_invariant_witness :
    List.Pairwise (· < ·) ((buildCollapsed [(⟨0, 2, 5⟩ : Tomb Nat), ⟨1, 3, 5⟩]).map Prod.fst) ∧
    lastSeq (buildCollapsed [(⟨0, 2, 5⟩ : Tomb Nat), ⟨1, 3, 5⟩]) = 0 ∧
    ∀ e, (buildCollapsed [(⟨0, 2, 5⟩ : Tomb Nat), ⟨1, 3, 5⟩]).getLast? = some e → e.2 = 0 :=
  c2_staircase_invariant_amended [⟨0, 2, 5⟩, ⟨1, 3, 5⟩] (by decide)

end RangeDel

namespace RangeDel

variable {α : Type} [LinearOrder α]

theorem walk_out_keys_from (q : Nat) (e : α) (l : Rep α) (p es : Nat) (a : α)
    (h : ∀ y ∈ l, a < y.1) : ∀ x ∈ (walk q e l p es).out, a < x.1 := by
  intro x hx
  have hxm : x.1 ∈ l.map Prod.fst :=
    (walk_out_sublist q e l p es).subset (List.mem_map_of_mem _ hx)
  obtain ⟨y, hy, hxy⟩ := List.mem_map.mp hxm
  rw [← hxy]
  exact h y hy

theorem finishTail_key_bounds (t : Tomb α) (L : Rep α) (r : WalkRes α)
    (hts : t.start < t.stop) (h_rem_ge : ∀ x ∈ r.rem, t.stop ≤ x.1) :
    (∀ x ∈ finishTail t L r, t.stop ≤ x.1) ∧ (∀ x ∈ finishTail t L r, t.start < x.1) := by
  have key : ∀ x ∈ finishTail t L r, t.stop ≤ x.1 := by
    rcases finishTail_cases t L r with ⟨heq, -, -, -⟩ | ⟨heq, -⟩
    · rw [heq]
      intro x hx
      rcases List.mem_cons.mp hx with rfl | hx'
      · exact le_refl _
      · exact h_rem_ge x hx'
    · rw [heq]
      exact h_rem_ge
  exact ⟨key, fun x hx => lt_of_lt_of_le hts (key x hx)⟩

theorem addT_append_form (t : Tomb α) (L M T2 : Rep α)
    (h_L_le : ∀ x ∈ L, x.1 ≤ t.start)
    (h_M_gt : ∀ x ∈ M, t.start < x.1)
    (h_M_lt : ∀ x ∈ M, x.1 < t.stop)
    (h_M_seq : ∀ x ∈ M, t.seq ≤ x.2)
    (h_T_gt : ∀ x ∈ T2, t.start < x.1)
    (h_T_ge : ∀ x ∈ T2, t.stop ≤ x.1)
    (h_not_lt : ¬lastSeq L < t.seq) :
    addT t (L ++ M ++ T2) =
      L ++ M ++ finishTail t L ⟨M, T2, lastSeqD M (lastSeq L), 0⟩ := by
  have htw : (L ++ M ++ T2).takeWhile (pLE t.start) = L := by
    rw [List.append_assoc]
    refine takeWhile_append_of_all _ L (M ++ T2) ?_ ?_
    · intro x hx
      simp only [pLE, decide_eq_true_eq]
      exact h_L_le x hx
    · intro y hy
      simp only [pLE, decide_eq_false_iff_not, not_le]
      rcases List.mem_append.mp hy with hy' | hy'
      · exact h_M_gt y hy'
      · exact h_T_gt y hy'
  have hdw : (L ++ M ++ T2).dropWhile (pLE t.start) = M ++ T2 := by
    rw [List.append_assoc]
    refine dropWhile_append_of_all _ L (M ++ T2) ?_ ?_
    · intro x hx
      simp only [pLE, decide_eq_true_eq]
      exact h_L_le x hx
    · intro y hy
      simp only [pLE, decide_eq_false_iff_not, not_le]
      rcases List.mem_append.mp hy with hy' | hy'
      · exact h_M_gt y hy'
      · exact h_T_gt y hy'
  have hcov : ∀ x ∈ M ++ T2, x.1 < t.stop → t.seq ≤ x.2 := by
    intro x hx hlt
    rcases List.mem_append.mp hx with hx' | hx'
    · exact h_M_seq x hx'
    · exact absurd hlt (not_lt.mpr (h_T_ge x hx'))
  have htw2 : (M ++ T2).takeWhile (pLT t.stop) = M := by
    refine takeWhile_append_of_all _ M T2 ?_ ?_
    · intro x hx
      simp only [pLT, decide_eq_true_eq]
      exact h_M_lt x hx
    · intro y hy
      simp only [pLT, decide_eq_false_iff_not, not_lt]
      exact h_T_ge y hy
  have hdw2 : (M ++ T2).dropWhile (pLT t.stop) = T2 := by
    refine dropWhile_append_of_all _ M T2 ?_ ?_
    · intro x hx
      simp only [pLT, decide_eq_true_eq]
      exact h_M_lt x hx
    · intro y hy
      simp only [pLT, decide_eq_false_iff_not, not_lt]
      exact h_T_ge y hy
  unfold addT
  rw [htw, hdw]
  unfold startLo startP1 startES
  simp only [if_neg h_not_lt]
  rw [walk_skip_all t.seq t.stop (M ++ T2) (lastSeq L) 0 hcov]
  rw [htw2, hdw2]

theorem finishTail_idem (t : Tomb α) (lo hi : Rep α) (hts : t.start < t.stop)
    (h_lo_le : ∀ x ∈ lo, x.1 ≤ t.start) :
    finishTail t (startLo t lo)
      ⟨(walk t.seq t.stop hi (startP1 t lo) (startES t lo)).out,
        finishTail t (startLo t lo) (walk t.seq t.stop hi (startP1 t lo) (startES t lo)),
        lastSeqD (walk t.seq t.stop hi (startP1 t lo) (startES t lo)).out
          (lastSeq (startLo t lo)), 0⟩ =
      finishTail t (startLo t lo) (walk t.seq t.stop hi (startP1 t lo) (startES t lo)) := by
  set L := startLo t lo with hL
  set r := walk t.seq t.stop hi (startP1 t lo) (startES t lo) with hr
  have hpm : lastSeqD r.out (lastSeq L) = r.prev := by
    rw [hL, lastSeq_startLo, hr]
    exact (walk_prev_eq _ _ _ _ _).symm
  rw [hpm]
  have h_L_le : ∀ x ∈ L, x.1 ≤ t.start := by
    rw [hL]
    exact mem_startLo_le t lo h_lo_le
  have h_L_lastKey : lastKeyIs L t.stop = false :=
    lastKeyIs_false_of_lt t.stop L (fun x hx => lt_of_le_of_lt (h_L_le x hx) hts)
  by_cases hpv : r.prev = t.seq
  · have hhd : headKeyIs (finishTail t L r) t.stop = true := by
      rcases finishTail_cases t L r with ⟨heq, -, -, -⟩ | ⟨heq, hnot⟩
      · rw [heq]
        simp [headKeyIs]
      · rw [heq]
        by_cases hb : headKeyIs r.rem t.stop = true
        · exact hb
        · exact absurd ⟨hpv, by simpa using hb, h_L_lastKey⟩ hnot
    rcases finishTail_cases t L ⟨r.out, finishTail t L r, r.prev, 0⟩ with
      ⟨-, -, hhd2, -⟩ | ⟨heq2, -⟩
    · have hhd2' : headKeyIs (finishTail t L r) t.stop = false := hhd2
      rw [hhd] at hhd2'
      cases hhd2'
    · exact heq2
  · rcases finishTail_cases t L ⟨r.out, finishTail t L r, r.prev, 0⟩ with
      ⟨-, hpv2, -, -⟩ | ⟨heq2, -⟩
    · have hpv2' : r.prev = t.seq := hpv2
      exact absurd hpv2' hpv
    · exact heq2

theorem addT_idem (t : Tomb α) (rep : Rep α) (hts : t.start < t.stop)
    (hp : rep.Pairwise RK) : addT t (addT t rep) = addT t rep := by
  have h_lo_le : ∀ x ∈ rep.takeWhile (pLE t.start), x.1 ≤ t.start :=
    mem_takeWhile_pLE_le t.start rep
  have h_hi_gt : ∀ x ∈ rep.dropWhile (pLE t.start), t.start < x.1 :=
    mem_dropWhile_pLE_gt t.start rep hp
  have hp_hi : (rep.dropWhile (pLE t.start)).Pairwise RK :=
    List.Pairwise.sublist (List.dropWhile_sublist _) hp
  have h_rem_ge : ∀ x ∈ (walk t.seq t.stop (rep.dropWhile (pLE t.start))
      (startP1 t (rep.takeWhile (pLE t.start)))
      (startES t (rep.takeWhile (pLE t.start)))).rem, t.stop ≤ x.1 := by
    rw [walk_rem]
    exact mem_dropWhile_pLT_ge t.stop _ hp_hi
  have hTb := finishTail_key_bounds t (startLo t (rep.takeWhile (pLE t.start)))
    (walk t.seq t.stop (rep.dropWhile (pLE t.start))
      (startP1 t (rep.takeWhile (pLE t.start)))
      (startES t (rep.takeWhile (pLE t.start)))) hts h_rem_ge
  have hform := addT_append_form t
    (startLo t (rep.takeWhile (pLE t.start)))
    (walk t.seq t.stop (rep.dropWhile (pLE t.start))
      (startP1 t (rep.takeWhile (pLE t.start)))
      (startES t (rep.takeWhile (pLE t.start)))).out
    (finishTail t (startLo t (rep.takeWhile (pLE t.start)))
      (walk t.seq t.stop (rep.dropWhile (pLE t.start))
        (startP1 t (rep.takeWhile (pLE t.start)))
        (startES t (rep.takeWhile (pLE t.start)))))
    (mem_startLo_le t _ h_lo_le)
    (walk_out_keys_from _ _ _ _ _ _ h_hi_gt)
    (walk_out_keys_lt _ _ _ _ _)
    (walk_out_seq_ge _ _ _ _ _)
    hTb.2
    hTb.1
    (by rw [lastSeq_startLo]; exact startP1_not_lt t _)
  have htail := finishTail_idem t (rep.takeWhile (pLE t.start))
    (rep.dropWhile (pLE t.start)) hts h_lo_le
  calc addT t (addT t rep)
      = startLo t (rep.takeWhile (pLE t.start)) ++
          (walk t.seq t.stop (rep.dropWhile (pLE t.start))
            (startP1 t (rep.takeWhile (pLE t.start)))
            (startES t (rep.takeWhile (pLE t.start)))).out ++
          finishTail t (startLo t (rep.takeWhile (pLE t.start)))
            ⟨(walk t.seq t.stop (rep.dropWhile (pLE t.start))
                (startP1 t (rep.takeWhile (pLE t.start)))
                (startES t (rep.takeWhile (pLE t.start)))).out,
              finishTail t (startLo t (rep.takeWhile (pLE t.start)))
                (walk t.seq t.stop (rep.dropWhile (pLE t.start))
                  (startP1 t (rep.takeWhile (pLE t.start)))
                  (startES t (rep.takeWhile (pLE t.start)))),
              lastSeqD (walk t.seq t.stop (rep.dropWhile (pLE t.start))
                  (startP1 t (rep.takeWhile (pLE t.start)))
                  (startES t (rep.takeWhile (pLE t.start)))).out
                (lastSeq (startLo t (rep.takeWhile (pLE t.start)))), 0⟩ := hform
    _ = startLo t (rep.takeWhile (pLE t.start)) ++
          (walk t.seq t.stop (rep.dropWhile (pLE t.start))
            (startP1 t (rep.takeWhile (pLE t.start)))
            (startES t (rep.takeWhile (pLE t.start)))).out ++
          finishTail t (startLo t (rep.takeWhile (pLE t.start)))
            (walk t.seq t.stop (rep.dropWhile (pLE t.start))
              (startP1 t (rep.takeWhile (pLE t.start)))
              (startES t (rep.takeWhile (pLE t.start)))) := by rw [htail]
    _ = addT t rep := rfl

end RangeDel

namespace RangeDel

variable {α : Type} [LinearOrder α]

theorem uAdd_length (t : Tomb α) (u : List (Tomb α)) :
    (uAdd t u).length = u.length + 1 := by
  induction u with
  | nil => rfl
  | cons v rest ih =>
    unfold uAdd
    split
    · simp
    · simp only [List.length_cons, ih]

theorem uAdd_count (t : Tomb α) (u : List (Tomb α)) :
    (uAdd t u).count t = u.count t + 1 := by
  induction u with
  | nil => simp [uAdd]
  | cons v rest ih =>
    unfold uAdd
    split
    · rw [List.count_cons_self]
    · rw [List.count_cons, List.count_cons, ih]
      omega

/-- C7, amended: for every non-empty tombstone `t` (`start_key < end_key`;
the counterexample forces this restriction) and every
`CollapsedRangeDelMap` state reachable from the empty map by
`AddTombstone` calls with well-formed tombstones (`start_key ≤ end_key`),
the second identical `AddTombstone` is a no-op; adding an identical
tombstone to an `UncollapsedRangeDelMap` instead always appends a
duplicate `multiset` entry, increasing `Size` by one each time. -/
theorem c7_idempotence_amended (ts : List (Tomb α)) (t : Tomb α) (u : List (Tomb α))
    (hts : ∀ u' ∈ ts, u'.start ≤ u'.stop) (ht : t.start < t.stop) :
    addT t (addT t (buildCollapsed ts)) = addT t (buildCollapsed ts) ∧
    uSize (uAdd t u) = uSize u + 1 ∧
    (uAdd t u).count t = u.count t + 1 := by
  refine ⟨?_, uAdd_length t u, uAdd_count t u⟩
  exact addT_idem t (buildCollapsed ts) ht (buildCollapsed_pairwise ts hts)

/-- Witness for `c7_idempotence_amended`: the reachable state
`buildCollapsed [[a,c)@5]` with the non-empty tombstone `[b,d)@7`. -/
theorem c7_idempotence_witness :
    addT (⟨1, 3, 7⟩ : Tomb Nat) (addT ⟨1, 3, 7⟩ (buildCollapsed [⟨0, 2, 5⟩])) =
      addT ⟨1, 3, 7⟩ (buildCollapsed [⟨0, 2, 5⟩]) ∧
    uSize (uAdd (⟨1, 3, 7⟩ : Tomb Nat) [⟨1, 3, 7⟩]) =
      uSize ([⟨1, 3, 7⟩] : List (Tomb Nat)) + 1 ∧
    (uAdd (⟨1, 3, 7⟩ : Tomb Nat) [⟨1, 3, 7⟩]).count ⟨1, 3, 7⟩ =
      ([⟨1, 3, 7⟩] : List (Tomb Nat)).count ⟨1, 3, 7⟩ + 1 :=
  c7_idempotence_amended [⟨0, 2, 5⟩] ⟨1, 3, 7⟩ [⟨1, 3, 7⟩] (by decide) (by decide)

end RangeDel
